import Mathlib

/-!
Shallow embedding of the `pinger` repository's logging core
(vendored `github.com/blendlabs/go-logger`): the `FlagSet` filter
(`flag_set.go`), the `Worker` lifecycle (`worker.go`) and the
`TextWriter` formatter.  Go strings are Lean `String`s, Go maps are
association lists with unique keys (the list order stands in for Go's
unspecified map iteration order), and Go's `strings` helpers used by
the source are embedded explicitly below.
-/

set_option autoImplicit false

namespace Logger

/-- The character set Go's `strings.Trim(s, " \t\n")` removes, as used by
`NewFlagSetFromCSV`. -/
def trimChars : List Char := [' ', '\t', '\n']

/-- Embedding of `strings.Trim(s, " \t\n")` on the character list. -/
def goTrimList (l : List Char) : List Char :=
  ((l.dropWhile (fun c => c ∈ trimChars)).reverse.dropWhile (fun c => c ∈ trimChars)).reverse

/-- Embedding of `strings.Trim(s, " \t\n")`. -/
def goTrim (s : String) : String :=
  String.mk (goTrimList s.data)

/-- Embedding of `strings.ToLower` (per-character lowercasing). -/
def goToLower (s : String) : String :=
  String.mk (s.data.map Char.toLower)

/-- Embedding of `strings.Split(s, ",")` on the character list: split at every
comma; the empty input yields one empty token, exactly as in Go. -/
def splitOnCommaList : List Char → List (List Char)
  | [] => [[]]
  | c :: rest =>
    let r := splitOnCommaList rest
    if c = ',' then [] :: r
    else
      match r with
      | [] => [[c]]
      | h :: t => (c :: h) :: t

/-- Embedding of `strings.Split(s, ",")`. -/
def goSplitComma (s : String) : List String :=
  (splitOnCommaList s.data).map String.mk

/-- Embedding of `strings.Join(l, sep)`. -/
def goJoin (sep : String) : List String → String
  | [] => ""
  | [s] => s
  | s :: rest => s ++ sep ++ goJoin sep rest

/-- Embedding of `strings.HasPrefix(s, "-")`. -/
def startsWithDash (s : String) : Bool :=
  match s.data with
  | '-' :: _ => true
  | _ => false

/-- Embedding of `strings.TrimPrefix(s, "-")`: drop one leading dash when
present, otherwise return the string unchanged. -/
def stripDash (s : String) : String :=
  match s.data with
  | '-' :: rest => String.mk rest
  | _ => s

/-- A `Flag` is a string-like category tag (`type Flag string`; the type's own
declaration lives in a go-logger file outside `src/`, its use is fixed by
`flag_set.go`). -/
abbrev Flag := String

/-- Modelled from the spec: the reserved sentinel tag meaning "match
everything"; `String()` emits it as the token `all` and the CSV constructor
recognises that token, so its value is the string `all`. -/
def FlagAll : Flag := "all"

/-- Modelled from the spec: the reserved sentinel tag meaning "match
nothing"; `String()` returns the token `none` when the none bit is set and
the CSV constructor recognises that token, so its value is the string
`none`. -/
def FlagNone : Flag := "none"

/-- The `FlagSet` from `flag_set.go`: a per-flag map plus the `all` and `none`
bits.  The Go map `map[Flag]bool` is modelled as an association list with
unique keys; a `nil` map behaves as the empty list for lookups. -/
structure FlagSet where
  flags : List (Flag × Bool)
  all : Bool
  none : Bool
deriving DecidableEq, Repr

/-- Go map lookup `efs.flags[flag]`: first binding for the key, if any. -/
def lookupFlag : List (Flag × Bool) → Flag → Option Bool
  | [], _ => Option.none
  | (k, v) :: rest, f => if k = f then some v else lookupFlag rest f

/-- Go map assignment `m[k] = v`: replace the (unique) binding for `k`, or
append a new binding. -/
def mapInsert : List (Flag × Bool) → Flag → Bool → List (Flag × Bool)
  | [], k, v => [(k, v)]
  | (k', v') :: rest, k, v =>
    if k' = k then (k, v) :: rest else (k', v') :: mapInsert rest k v

/-- Method `Enable` from `flag_set.go`. -/
def FlagSet.Enable (efs : FlagSet) (flag : Flag) : FlagSet :=
  { efs with none := false, flags := mapInsert efs.flags flag true }

/-- Method `Disable` from `flag_set.go`. -/
def FlagSet.Disable (efs : FlagSet) (flag : Flag) : FlagSet :=
  { efs with flags := mapInsert efs.flags flag false }

/-- Method `SetAll` from `flag_set.go`. -/
def FlagSet.SetAll (efs : FlagSet) : FlagSet :=
  { efs with all := true, none := false }

/-- Method `SetNone` from `flag_set.go`: sets `none`, clears `all`, and replaces the
per-flag map with a fresh empty map. -/
def FlagSet.SetNone (efs : FlagSet) : FlagSet :=
  { efs with all := false, flags := [], none := true }

/-- Method `IsEnabled` from `flag_set.go`: the `all` branch is checked first (an
explicit disabled entry still wins inside it), then the `none` bit, then the
per-flag entry with default `false`. -/
def FlagSet.IsEnabled (efs : FlagSet) (flag : Flag) : Bool :=
  if efs.all then
    match lookupFlag efs.flags flag with
    | some false => false
    | _ => true
  else if efs.none then false
  else
    match lookupFlag efs.flags flag with
    | some enabled => enabled
    | Option.none => false

/-- One iteration of the per-entry loop in `FlagSet.String()`: skip the `all`
key; append an enabled key bare only when the `all` bit is unset; append a
disabled key as `-key`. -/
def tokenStep (all : Bool) (acc : List String) (kv : Flag × Bool) : List String :=
  if kv.1 ≠ FlagAll then
    if kv.2 then
      if all then acc else acc ++ [kv.1]
    else acc ++ ["-" ++ kv.1]
  else acc

/-- The token list built by `FlagSet.String()` before joining (the non-`none`
branch): the optional `all` token followed by the per-entry tokens. -/
def tokensOf (efs : FlagSet) : List String :=
  List.foldl (tokenStep efs.all) (if efs.all then [FlagAll] else []) efs.flags

/-- Method `String()` from `flag_set.go`: `none` short-circuits, otherwise the
tokens are joined with a comma and a space. -/
def FlagSet.toString (efs : FlagSet) : String :=
  if efs.none then FlagNone
  else goJoin ", " (tokensOf efs)

/-- Method `CoalesceWith` from `flag_set.go`: the other set's bits are ORed in and
its per-flag entries overwrite ours. -/
def FlagSet.CoalesceWith (efs other : FlagSet) : FlagSet :=
  { efs with
    all := if other.all then true else efs.all
    none := if other.none then true else efs.none
    flags := List.foldl (fun m kv => mapInsert m kv.1 kv.2) efs.flags other.flags }

/-- The per-token body of `NewFlagSetFromCSV`, applied to the already
lowercased and trimmed token. -/
def parseStepPF (fs : FlagSet) (parsedFlag : String) : FlagSet :=
  let fs1 := if parsedFlag = FlagAll then { fs with all := true } else fs
  let fs2 := if parsedFlag = FlagNone then { fs1 with none := true } else fs1
  if startsWithDash parsedFlag then
    { fs2 with flags := mapInsert fs2.flags (stripDash parsedFlag) false }
  else
    { fs2 with flags := mapInsert fs2.flags parsedFlag true }

/-- One loop iteration of `NewFlagSetFromCSV`: lowercase, then trim, then
dispatch on the token. -/
def parseStep (fs : FlagSet) (tok : String) : FlagSet :=
  parseStepPF fs (goTrim (goToLower tok))

/-- Constructor `NewFlagSetFromCSV` from `flag_set.go`. -/
def NewFlagSetFromCSV (flagCSV : String) : FlagSet :=
  List.foldl parseStep { flags := [], all := false, none := false } (goSplitComma flagCSV)

/-! ### Worker (`worker.go`)

The worker owns a listener, an optional parent error sink and a FIFO queue.
Listener side effects are abstracted into an outcome: either a normal
return or a Go `panic` carrying a value (rendered as a string).  The
channel select loop is modelled as sequential consumption of the finite
list of events that arrive before the abort signal. -/

/-- The observable outcome of one Listener invocation: normal return, or a
panic carrying the panic value. -/
inductive ListenerOutcome where
  | ok : ListenerOutcome
  | panics : String → ListenerOutcome
deriving DecidableEq, Repr

/-- The Worker state that the lifecycle claims depend on: the parent sink
(`Parent *Logger`, modelled by its presence), the Listener (by its outcome
on each event), the `Work` queue contents and the `IsRunning` flag. -/
structure Worker (E : Type) where
  hasParent : Bool
  listener : E → ListenerOutcome
  work : List E
  isRunning : Bool

/-- What one call of `Worker.Process` lets escape to its caller and reports
to the parent sink.  `escaped` is the panic, if any, that propagates out of
`Process` past the deferred `recover`. -/
structure ProcOut where
  escaped : Option String
  fatals : List String
deriving DecidableEq, Repr

/-- Modelled from the spec: `Logger.SyncFatalf("%v", r)` (the parent sink
lives outside `src/`) is a synchronous fatal-severity report carrying the
recovered value; we record the formatted value itself. -/
def SyncFatalf (r : String) : String := r

/-- Method `Process` from `worker.go`: run the Listener; the deferred `recover`
catches any panic, and when a parent is configured forwards it with
`SyncFatalf`; nothing ever escapes to the caller. -/
def Worker.Process {E : Type} (w : Worker E) (e : E) : ProcOut :=
  match w.listener e with
  | ListenerOutcome.ok => { escaped := Option.none, fatals := [] }
  | ListenerOutcome.panics r =>
    { escaped := Option.none
      fatals := if w.hasParent then [SyncFatalf r] else [] }

/-- The `ProcessLoop` select loop restricted to a finite arrival sequence:
each arriving event is passed to `Process`; a panic escaping `Process`
would kill the goroutine and end the loop early, which the `escaped` case
records. -/
def Worker.runLoop {E : Type} (w : Worker E) : List E → List (E × ProcOut)
  | [] => []
  | e :: rest =>
    let o := w.Process e
    match o.escaped with
    | some _ => [(e, o)]
    | Option.none => (e, o) :: w.runLoop rest

/-- Method `Stop` from `worker.go`: a no-op when not running, otherwise the
abort/acknowledge handshake leaves the loop stopped (`IsRunning = false`). -/
def Worker.Stop {E : Type} (w : Worker E) : Worker E :=
  if w.isRunning then { w with isRunning := false } else w

/-- The `for len(w.Work) > 0` loop inside `Drain`: process the queued
events front to back on the calling thread. -/
def Worker.drainLoop {E : Type} (w : Worker E) : List E → List (E × ProcOut)
  | [] => []
  | e :: rest => (e, w.Process e) :: w.drainLoop rest

/-- Method `Drain` from `worker.go`: `Stop`, then synchronously process everything
left in the queue.  Returns the drained worker and the processing trace. -/
def Worker.Drain {E : Type} (w : Worker E) : Worker E × List (E × ProcOut) :=
  let w1 := w.Stop
  ({ w1 with work := [] }, w1.drainLoop w1.work)

/-! ### TextWriter (`worker.go`, text writer part)

The event buffer is modelled as the string written so far; the output sink
is the returned line.  Capabilities (`TextWritable`, `fmt.Stringer`,
`FlagTextColorProvider`) are optional fields.  A Go `time.Time` is
modelled by its `Format` method, a function from layout strings to
rendered strings, since `time` is a library outside this repository. -/

/-- A Go `time.Time`, reduced to the one capability the writer uses:
`Format(layout)`. -/
structure GoTime where
  format : String → String

/-- An `AnsiColor` is its escape string (`type AnsiColor string`; declared
in a go-logger file outside `src/`). -/
abbrev AnsiColor := String

/-- Modelled from the spec: the ANSI escape catalogue is outside the core;
`Apply` wraps a value in the color's escape sequence and a reset
sequence. -/
def AnsiColor.apply (c : AnsiColor) (v : String) : String :=
  c ++ v ++ "ansi-reset"

/-- Modelled from the spec: the gray color used for timestamps. -/
def ColorGray : AnsiColor := "ansi-gray"

/-- Modelled from the spec: the blue color used for labels. -/
def ColorBlue : AnsiColor := "ansi-blue"

/-- Modelled from the spec: the global flag-to-color lookup used when the
event provides no color of its own. -/
def GetFlagTextColor (_ : Flag) : AnsiColor := "ansi-default"

/-- Modelled from the spec: the separator rune written between segments. -/
def RuneSpace : Char := ' '

/-- Modelled from the spec: the newline rune terminating every line. -/
def RuneNewline : Char := '\n'

/-- Modelled from the spec: `time.RFC3339`, the default time format. -/
def DefaultTextTimeFormat : String := "2006-01-02T15:04:05Z07:00"

/-- An event as the text writer sees it: the two mandatory accessors plus
the three optional capabilities.  `writeText` is the text a `TextWritable`
event appends to the buffer (given the writer as formatter); `stringer` is
the `fmt.Stringer` output. -/
structure TEvent where
  flag : Flag
  timestamp : GoTime
  flagTextColor : Option AnsiColor
  writeText : Option String
  stringer : Option String

/-- The `TextWriter` formatting configuration from `worker.go`. -/
structure TextWriter where
  showTimestamp : Bool
  showLabel : Bool
  useColor : Bool
  timeFormat : String
  label : String

/-- Method `Colorize` from `worker.go`: apply the color only when `useColor` is
set, otherwise pass the value through. -/
def TextWriter.Colorize (wr : TextWriter) (value : String) (color : AnsiColor) : String :=
  if wr.useColor then color.apply value else value

/-- Method `FormatFlag` from `worker.go`: the flag, colorized and bracketed. -/
def TextWriter.FormatFlag (wr : TextWriter) (flag : Flag) (color : AnsiColor) : String :=
  "[" ++ wr.Colorize flag color ++ "]"

/-- Method `FormatLabel` from `worker.go`: the label, colorized blue and
bracketed. -/
def TextWriter.FormatLabel (wr : TextWriter) : String :=
  "[" ++ wr.Colorize wr.label ColorBlue ++ "]"

/-- Method `FormatTimestamp` from `worker.go` with an explicit time supplied (as
`write` does): format with the configured layout, defaulting when empty,
then colorize gray. -/
def TextWriter.FormatTimestamp (wr : TextWriter) (t : GoTime) : String :=
  let timeFormat := if wr.timeFormat.length > 0 then wr.timeFormat else DefaultTextTimeFormat
  wr.Colorize (t.format timeFormat) ColorGray

/-- The private `write` from `worker.go`, with the buffer made explicit:
optional timestamp segment, optional label segment (skipped when the label
is empty), the flag segment with the capability-resolved color, the body
from the first available capability, and the final newline.  The returned
string is what the single `WriteTo` flush hands the sink. -/
def TextWriter.write (wr : TextWriter) (e : TEvent) : String :=
  let buf := ""
  let buf := if wr.showTimestamp
    then buf ++ wr.FormatTimestamp e.timestamp ++ String.mk [RuneSpace]
    else buf
  let buf := if wr.showLabel ∧ wr.label.length > 0
    then buf ++ wr.FormatLabel ++ String.mk [RuneSpace]
    else buf
  let flagColor := match e.flagTextColor with
    | some c => if c.length > 0 then c else GetFlagTextColor e.flag
    | Option.none => GetFlagTextColor e.flag
  let buf := buf ++ wr.FormatFlag e.flag flagColor ++ String.mk [RuneSpace]
  let buf := match e.writeText with
    | some t => buf ++ t
    | Option.none =>
      match e.stringer with
      | some s => buf ++ s
      | Option.none => buf
  buf ++ String.mk [RuneNewline]

/-! ### Map model lemmas -/

theorem lookupFlag_mapInsert_self (m : List (Flag × Bool)) (k : Flag) (v : Bool) :
    lookupFlag (mapInsert m k v) k = some v := by
  induction m with
  | nil => simp [mapInsert, lookupFlag]
  | cons kv rest ih =>
    obtain ⟨k1, v1⟩ := kv
    by_cases h : k1 = k
    · simp [mapInsert, h, lookupFlag]
    · simp [mapInsert, h, lookupFlag, ih]

theorem lookupFlag_mapInsert_ne (m : List (Flag × Bool)) (k : Flag) (v : Bool)
    (f : Flag) (h : k ≠ f) :
    lookupFlag (mapInsert m k v) f = lookupFlag m f := by
  induction m with
  | nil => simp [mapInsert, lookupFlag, h]
  | cons kv rest ih =>
    obtain ⟨k1, v1⟩ := kv
    by_cases h1 : k1 = k
    · subst h1
      simp [mapInsert, lookupFlag, h]
    · simp [mapInsert, h1, lookupFlag, ih]

theorem lookupFlag_eq_none (m : List (Flag × Bool)) (f : Flag)
    (h : f ∉ m.map Prod.fst) : lookupFlag m f = Option.none := by
  induction m with
  | nil => rfl
  | cons kv rest ih =>
    obtain ⟨k1, v1⟩ := kv
    simp only [List.map_cons, List.mem_cons] at h
    push_neg at h
    simp [lookupFlag, Ne.symm h.1, ih h.2]

theorem lookupFlag_foldl_mapInsert (entries : List (Flag × Bool)) :
    ∀ (m : List (Flag × Bool)) (f : Flag),
    (entries.map Prod.fst).Nodup →
    lookupFlag (List.foldl (fun m kv => mapInsert m kv.1 kv.2) m entries) f =
      match lookupFlag entries f with
      | some v => some v
      | Option.none => lookupFlag m f := by
  induction entries with
  | nil => intro m f _; simp [lookupFlag]
  | cons kv rest ih =>
    intro m f hnd
    obtain ⟨k, v⟩ := kv
    simp only [List.map_cons, List.nodup_cons] at hnd
    obtain ⟨hk, hrest⟩ := hnd
    rw [List.foldl_cons, ih (mapInsert m k v) f hrest]
    by_cases h : k = f
    · subst h
      have : lookupFlag rest k = Option.none := lookupFlag_eq_none rest k hk
      simp [lookupFlag, this, lookupFlag_mapInsert_self]
    · simp [lookupFlag, h, lookupFlag_mapInsert_ne m k v f h]

/-! ### Claims C1, C2, C5, C6 -/

/-- C1, counterexample: with both the `all` and `none` bits set and no
per-flag entry, `IsEnabled` returns `true`, not `false`: the `all` branch is
checked before the `none` branch. -/
theorem C1_counterexample :
    FlagSet.IsEnabled { flags := [], all := true, none := true } "x" = true := by decide

/-- C1, amended: when both the `all` bit and the `none` bit are set, the
`all` bit wins: `IsEnabled(f)` is `false` exactly when an explicit per-flag
entry for `f` is `false`, and `true` otherwise; the `none` bit is consulted
only when `all` is unset. -/
theorem C1_amended (s : FlagSet) (f : Flag) (hall : s.all = true) (_hnone : s.none = true) :
    s.IsEnabled f = (lookupFlag s.flags f).getD true := by
  simp only [FlagSet.IsEnabled, hall, if_true]
  cases h : lookupFlag s.flags f with
  | none => simp
  | some b => cases b <;> simp

/-- C1, witness: the amended statement evaluated on a set with both bits
set and one explicit disabled entry. -/
theorem C1_witness :
    FlagSet.IsEnabled { flags := [("error", false)], all := true, none := true } "error"
      = (lookupFlag [("error", false)] "error").getD true :=
  C1_amended { flags := [("error", false)], all := true, none := true } "error" rfl rfl

/-- C2, counterexample: coalescing with a `none`-bit other changes the
verdict of a flag absent from the other's per-flag map: the original self
answers `true` for `x`, the merged set answers `false`, so the merged
verdict does not equal the original self verdict. -/
theorem C2_counterexample :
    FlagSet.IsEnabled { flags := [("x", true)], all := false, none := false } "x" = true
    ∧ FlagSet.IsEnabled
        (FlagSet.CoalesceWith { flags := [("x", true)], all := false, none := false }
          { flags := [], all := false, none := true }) "x" = false := by decide

/-- C2, amended: `CoalesceWith` is right-biased at the verdict level
provided the other set's `all` and `none` bits are unset and self's `none`
bit is unset (the bits are ORed in by the merge, so a set bit on either
side can otherwise override per-entry verdicts): for flags explicitly in
the other's map the merged verdict is the other's pre-merge verdict, and
for flags absent from it the merged verdict is self's pre-merge verdict. -/
theorem C2_amended (self other : FlagSet) (f : Flag)
    (hoall : other.all = false) (hononeb : other.none = false)
    (hsnone : self.none = false) (hnd : (other.flags.map Prod.fst).Nodup) :
    ((lookupFlag other.flags f).isSome = true →
      (self.CoalesceWith other).IsEnabled f = other.IsEnabled f)
    ∧ ((lookupFlag other.flags f).isSome = false →
      (self.CoalesceWith other).IsEnabled f = self.IsEnabled f) := by
  have hmerge := lookupFlag_foldl_mapInsert other.flags self.flags f hnd
  constructor
  · intro hsome
    cases hv : lookupFlag other.flags f with
    | none => rw [hv] at hsome; simp at hsome
    | some v =>
      rw [hv] at hmerge
      simp only at hmerge
      cases v <;> cases hsall : self.all <;>
        simp [FlagSet.IsEnabled, FlagSet.CoalesceWith, hoall, hononeb, hsnone,
          hsall, hmerge, hv]
  · intro hn
    cases hv : lookupFlag other.flags f with
    | some v => rw [hv] at hn; simp at hn
    | none =>
      rw [hv] at hmerge
      simp only at hmerge
      simp only [FlagSet.IsEnabled, FlagSet.CoalesceWith, hoall, hononeb, hsnone,
        hmerge]
      simp

/-- C2, witness: the amended statement evaluated on concrete sets, for a
flag explicitly present in the other set. -/
theorem C2_witness :
    FlagSet.IsEnabled
        (FlagSet.CoalesceWith { flags := [("a", true)], all := false, none := false }
          { flags := [("b", false)], all := false, none := false }) "b"
      = FlagSet.IsEnabled { flags := [("b", false)], all := false, none := false } "b" :=
  (C2_amended { flags := [("a", true)], all := false, none := false }
      { flags := [("b", false)], all := false, none := false } "b"
      rfl rfl rfl (by decide)).1 (by decide)

/-- C5: `SetNone` destructively clears the per-flag map, clears the `all`
bit, sets the `none` bit, and afterwards `IsEnabled` is `false` for every
flag. -/
theorem C5_setNone (s : FlagSet) (f : Flag) :
    (s.SetNone).flags = [] ∧ (s.SetNone).all = false ∧ (s.SetNone).none = true
    ∧ (s.SetNone).IsEnabled f = false := by
  simp [FlagSet.SetNone, FlagSet.IsEnabled, lookupFlag]

/-- C6, counterexample: a pre-existing explicit disable entry survives
`SetAll()` and `Disable(x)`, so `IsEnabled` of that other flag is `false`,
not `true` as the claim states for every other flag. -/
theorem C6_counterexample :
    FlagSet.IsEnabled
      ((FlagSet.SetAll { flags := [("y", false)], all := false, none := false }).Disable "x")
      "y" = false := by decide

/-- C6, amended: after `SetAll()` then `Disable(x)`, `IsEnabled(x)` is
`false`, and `IsEnabled(y)` is `true` for every other flag `y` that does
not itself carry a pre-existing explicit disable entry; and parsing the
CSV `all,-error` yields `IsEnabled("error") = false` and
`IsEnabled("info") = true`. -/
theorem C6_amended (s : FlagSet) (x y : Flag) (hxy : y ≠ x)
    (hy : lookupFlag s.flags y ≠ some false) :
    ((s.SetAll.Disable x).IsEnabled x = false
      ∧ (s.SetAll.Disable x).IsEnabled y = true)
    ∧ (NewFlagSetFromCSV "all,-error").IsEnabled "error" = false
    ∧ (NewFlagSetFromCSV "all,-error").IsEnabled "info" = true := by
  refine ⟨⟨?_, ?_⟩, by decide, by decide⟩
  · simp [FlagSet.IsEnabled, FlagSet.SetAll, FlagSet.Disable,
      lookupFlag_mapInsert_self]
  · have hne : x ≠ y := Ne.symm hxy
    simp only [FlagSet.IsEnabled, FlagSet.SetAll, FlagSet.Disable, if_true,
      lookupFlag_mapInsert_ne s.flags x false y hne]

/-- C6, witness: the amended statement evaluated on a fresh empty set with
`x` disabled and a distinct flag `y`. -/
theorem C6_witness :
    FlagSet.IsEnabled
      ((FlagSet.SetAll { flags := [], all := false, none := false }).Disable "x") "y" = true :=
  ((C6_amended { flags := [], all := false, none := false } "x" "y"
    (by decide) (by decide)).1).2

/-! ### Claims C7 and C8 (Worker) -/

/-- C7: a Listener failure inside `Process` never escapes to the caller;
with a parent configured it becomes exactly one synchronous fatal-severity
report of the recovered value, otherwise it is discarded; and the loop
keeps running, so every event of the arrival sequence, including those
after a panicking one, is delivered to the Listener in order. -/
theorem C7_fault_isolation (E : Type) (w : Worker E) (es : List E) :
    (w.runLoop es).map Prod.fst = es
    ∧ (w.runLoop es).map (fun p => p.2.escaped) = es.map (fun _ => Option.none)
    ∧ (w.runLoop es).map (fun p => p.2.fatals)
        = es.map (fun e => match w.listener e with
            | ListenerOutcome.ok => []
            | ListenerOutcome.panics r => if w.hasParent then [SyncFatalf r] else []) := by
  refine ⟨?_, ?_, ?_⟩ <;>
  · induction es with
    | nil => rfl
    | cons e rest ih =>
      cases h : w.listener e <;>
        simp [Worker.runLoop, Worker.Process, h, ih]

/-- C8: `Drain` first runs `Stop` (the drained worker is no longer
running), then on the calling thread dequeues and hands every event that
was resident in the queue to `Process` in FIFO order, leaving the queue
empty. -/
theorem C8_drain (E : Type) (w : Worker E) :
    (w.Drain).2 = w.work.map (fun e => (e, w.Process e))
    ∧ (w.Drain).1.work = []
    ∧ (w.Drain).1.isRunning = false := by
  have hstop : w.Stop.listener = w.listener ∧ w.Stop.hasParent = w.hasParent
      ∧ w.Stop.work = w.work ∧ w.Stop.isRunning = false := by
    by_cases h : w.isRunning <;> simp [Worker.Stop, h]
  have hproc : ∀ e, w.Stop.Process e = w.Process e := by
    intro e
    simp [Worker.Process, hstop.1, hstop.2.1]
  have hdl : ∀ (l : List E), w.Stop.drainLoop l = l.map (fun e => (e, w.Process e)) := by
    intro l
    induction l with
    | nil => rfl
    | cons e rest ih => simp [Worker.drainLoop, hproc, ih]
  refine ⟨?_, rfl, ?_⟩
  · show w.Stop.drainLoop w.Stop.work = _
    rw [hstop.2.2.1, hdl]
  · show w.Stop.isRunning = false
    exact hstop.2.2.2

/-! ### Claim C9 (TextWriter) -/

/-- C9: with an empty configured label, show-timestamp and show-label both
on and use-color off, `write` produces exactly the formatted timestamp, a
space, the bracketed flag, a space, the body and a newline; the empty label
segment is omitted even though show-label is on, and the body is the
custom-rendered text when the event has that capability, else its stringer
output, else empty. -/
theorem C9_text_line (wr : TextWriter) (e : TEvent)
    (hlabel : wr.label = "") (hts : wr.showTimestamp = true)
    (hsl : wr.showLabel = true) (huc : wr.useColor = false) :
    wr.write e =
      e.timestamp.format (if wr.timeFormat.length > 0 then wr.timeFormat else DefaultTextTimeFormat)
      ++ " [" ++ e.flag ++ "] "
      ++ (match e.writeText with
          | some t => t
          | Option.none =>
            match e.stringer with
            | some s => s
            | Option.none => "")
      ++ String.mk [RuneNewline] := by
  simp only [TextWriter.write, TextWriter.FormatTimestamp, TextWriter.FormatLabel,
    TextWriter.FormatFlag, TextWriter.Colorize, hlabel, hts, hsl, huc,
    if_true, if_false, Bool.false_eq_true, String.length, RuneSpace]
  cases e.writeText with
  | some t =>
    simp [String.ext_iff]
  | none =>
    cases e.stringer with
    | some s => simp [String.ext_iff]
    | none => simp [String.ext_iff]

/-- C9, witness: the statement evaluated on a concrete writer and event:
an event with flag `ping`, a timestamp rendering as `TS`, no color
capability, a custom text body and no stringer. -/
theorem C9_witness :
    TextWriter.write
      { showTimestamp := true, showLabel := true, useColor := false,
        timeFormat := "fmt", label := "" }
      { flag := "ping", timestamp := { format := fun _ => "TS" },
        flagTextColor := Option.none, writeText := some "body",
        stringer := Option.none }
      = "TS [ping] body" ++ String.mk [RuneNewline] := by
  rw [C9_text_line _ _ rfl rfl rfl rfl]
  rfl

/-! ### Claim C10 (CSV lowercasing) -/

theorem char_toNat_ofNat (n : Nat) (h : n.isValidChar) : (Char.ofNat n).toNat = n := by
  simp [Char.ofNat, h, Char.ofNatAux, Char.toNat, UInt32.toNat]

theorem toLower_idem (c : Char) : Char.toLower (Char.toLower c) = Char.toLower c := by
  unfold Char.toLower
  by_cases h : c.toNat ≥ 65 ∧ c.toNat ≤ 90
  · simp only [h, and_self, if_true, true_and, if_pos]
    have hv : (c.toNat + 32).isValidChar := by
      left
      omega
    rw [char_toNat_ofNat (c.toNat + 32) hv]
    have h2 : ¬(c.toNat + 32 ≥ 65 ∧ c.toNat + 32 ≤ 90) := by omega
    rw [if_neg h2]
  · simp [h]

theorem mem_of_mem_goTrimList (l : List Char) (c : Char) (h : c ∈ goTrimList l) :
    c ∈ l := by
  simp only [goTrimList, List.mem_reverse] at h
  have h1 := (List.dropWhile_sublist (fun c => decide (c ∈ trimChars))).subset h
  rw [List.mem_reverse] at h1
  exact (List.dropWhile_sublist (fun c => decide (c ∈ trimChars))).subset h1

theorem mem_of_mem_stripDash (s : String) (c : Char) (h : c ∈ (stripDash s).data) :
    c ∈ s.data := by
  unfold stripDash at h
  split at h
  · next rest heq =>
      rw [heq]
      exact List.mem_cons_of_mem _ h
  · exact h

/-- Every character of a parsed token (lowercased, trimmed, possibly
dash-stripped) is fixed by `Char.toLower`. -/
theorem parsedFlag_chars_lower (tok : String) (c : Char)
    (h : c ∈ (goTrim (goToLower tok)).data) : Char.toLower c = c := by
  have h1 : c ∈ (goToLower tok).data := mem_of_mem_goTrimList _ c h
  simp only [goToLower, List.mem_map] at h1
  obtain ⟨c0, _, rfl⟩ := h1
  exact toLower_idem c0

theorem goToLower_fixed (s : String) (h : ∀ c ∈ s.data, Char.toLower c = c) :
    goToLower s = s := by
  unfold goToLower
  have : s.data.map Char.toLower = s.data := by
    rw [List.map_congr_left h]
    exact List.map_id s.data
  rw [this]

theorem mem_mapInsert (m : List (Flag × Bool)) (k : Flag) (v : Bool)
    (kv : Flag × Bool) (h : kv ∈ mapInsert m k v) : kv = (k, v) ∨ kv ∈ m := by
  induction m with
  | nil => simpa [mapInsert] using h
  | cons kv1 rest ih =>
    obtain ⟨k1, v1⟩ := kv1
    by_cases h1 : k1 = k
    · simp only [mapInsert, h1, if_true] at h
      rcases List.mem_cons.1 h with h2 | h2
      · exact Or.inl h2
      · exact Or.inr (List.mem_cons_of_mem _ h2)
    · simp only [mapInsert, h1, if_false] at h
      rcases List.mem_cons.1 h with h2 | h2
      · exact Or.inr (by simp [h2])
      · rcases ih h2 with h3 | h3
        · exact Or.inl h3
        · exact Or.inr (List.mem_cons_of_mem _ h3)

/-- The keys inserted by one CSV parse step are fixed by lowercasing, and
the step preserves that property of the accumulated map. -/
theorem parseStep_keys_lower (fs : FlagSet) (tok : String)
    (h : ∀ kv ∈ fs.flags, goToLower kv.1 = kv.1) :
    ∀ kv ∈ (parseStep fs tok).flags, goToLower kv.1 = kv.1 := by
  intro kv hkv
  have hpf : goToLower (goTrim (goToLower tok)) = goTrim (goToLower tok) :=
    goToLower_fixed _ (parsedFlag_chars_lower tok)
  have hsd : goToLower (stripDash (goTrim (goToLower tok)))
      = stripDash (goTrim (goToLower tok)) :=
    goToLower_fixed _ (fun c hc =>
      parsedFlag_chars_lower tok c (mem_of_mem_stripDash _ c hc))
  simp only [parseStep, parseStepPF] at hkv
  split at hkv
  · rcases mem_mapInsert _ _ _ kv hkv with h1 | h1
    · rw [h1]
      exact hsd
    · split at h1 <;> split at h1 <;> exact h _ h1
  · rcases mem_mapInsert _ _ _ kv hkv with h1 | h1
    · rw [h1]
      exact hpf
    · split at h1 <;> split at h1 <;> exact h _ h1

theorem parse_foldl_keys_lower (toks : List String) :
    ∀ (fs : FlagSet), (∀ kv ∈ fs.flags, goToLower kv.1 = kv.1) →
    ∀ kv ∈ (List.foldl parseStep fs toks).flags, goToLower kv.1 = kv.1 := by
  induction toks with
  | nil => intro fs h; exact h
  | cons tok rest ih =>
    intro fs h
    exact ih (parseStep fs tok) (parseStep_keys_lower fs tok h)

/-- C10: the CSV constructor lowercases every token before storing it, so
every key in the resulting per-flag map is fixed by lowercasing, and
lookups are case-sensitive against the lowercased form: parsing `ERROR`
gives a set where `error` is enabled but `ERROR` is not. -/
theorem C10_lowercase :
    (∀ (csv : String) (kv : Flag × Bool),
        kv ∈ (NewFlagSetFromCSV csv).flags → goToLower kv.1 = kv.1)
    ∧ (NewFlagSetFromCSV "ERROR").IsEnabled "error" = true
    ∧ (NewFlagSetFromCSV "ERROR").IsEnabled "ERROR" = false := by
  refine ⟨?_, by decide, by decide⟩
  intro csv kv hkv
  exact parse_foldl_keys_lower (goSplitComma csv)
    { flags := [], all := false, none := false } (by simp) kv hkv

/-- C10, witness: the lowercase-key statement applied to the concrete map
entry produced by parsing `ERROR`, together with the concrete verdicts. -/
theorem C10_witness :
    goToLower "error" = "error"
    ∧ (NewFlagSetFromCSV "ERROR").IsEnabled "error" = true :=
  ⟨C10_lowercase.1 "ERROR" ("error", true) (by decide), C10_lowercase.2.1⟩

/-! ### Claim C4 (String() token structure) -/

/-- Which token, if any, `String()` emits for one per-flag entry: the `all`
key is skipped entirely, an enabled key is emitted bare only when the `all`
bit is unset, a disabled key is emitted as `-key`. -/
def entryToken (all : Bool) (kv : Flag × Bool) : Option String :=
  if kv.1 = FlagAll then Option.none
  else if kv.2 then (if all then Option.none else some kv.1)
  else some ("-" ++ kv.1)

theorem foldl_tokenStep (all : Bool) (l : List (Flag × Bool)) :
    ∀ acc, List.foldl (tokenStep all) acc l = acc ++ l.filterMap (entryToken all) := by
  induction l with
  | nil => intro acc; simp
  | cons kv rest ih =>
    intro acc
    rw [List.foldl_cons, ih]
    by_cases h1 : kv.1 = FlagAll
    · simp [tokenStep, entryToken, h1]
    · by_cases h2 : kv.2
      · cases hall : all <;> simp [tokenStep, entryToken, h1, h2]
      · simp [tokenStep, entryToken, h1, h2]

theorem tokensOf_eq (s : FlagSet) :
    tokensOf s = (if s.all then [FlagAll] else []) ++ s.flags.filterMap (entryToken s.all) := by
  unfold tokensOf
  exact foldl_tokenStep s.all s.flags _

/-- C4, counterexample: with the none bit unset, an entry keyed by the
reserved `none` flag is NOT excluded from the per-flag loop: a set holding
only an enabled `none`-keyed entry serializes to the non-empty string
`none`, whereas the claim's exclusion of both reserved flags would leave no
tokens at all. -/
theorem C4_counterexample :
    FlagSet.toString { flags := [("none", true)], all := false, none := false } = "none"
    ∧ ("none" : String) ≠ "" := by
  refine ⟨by decide, by decide⟩

/-- C4, amended: when the none bit is set `String()` returns exactly
`none`; otherwise it joins, with comma-space, the token `all` (exactly when
the all bit is set) followed by one token per per-flag entry: nothing for
the reserved `all` key — the only key excluded from the loop —, `-key` for
a disabled entry, and the bare key for an enabled entry only when the all
bit is unset; an entry keyed by the reserved `none` flag is emitted like
any other entry. -/
theorem C4_amended (s : FlagSet) :
    (s.none = true → s.toString = FlagNone)
    ∧ (s.none = false →
        s.toString = goJoin ", "
          ((if s.all then [FlagAll] else []) ++ s.flags.filterMap (entryToken s.all))) := by
  constructor
  · intro h
    simp [FlagSet.toString, h]
  · intro h
    simp [FlagSet.toString, h, tokensOf_eq]

/-- C4, witness: the amended statement evaluated on a set with the all bit
set, an enabled entry and a disabled entry. -/
theorem C4_witness :
    FlagSet.toString { flags := [("info", true), ("debug", false)], all := true, none := false }
      = goJoin ", " ((if true then [FlagAll] else [])
          ++ [("info", true), ("debug", false)].filterMap (entryToken true)) :=
  (C4_amended { flags := [("info", true), ("debug", false)], all := true, none := false }).2 rfl

/-! ### Claim C3 (String/CSV round trip) -/

/-- Helper: the char-level form of joining with a comma and a space. -/
def joinCommaList : List (List Char) → List Char
  | [] => []
  | [x] => x
  | x :: xs => x ++ ',' :: ' ' :: joinCommaList xs

theorem goJoin_data (toks : List String) :
    (goJoin ", " toks).data = joinCommaList (toks.map String.data) := by
  induction toks with
  | nil => rfl
  | cons t rest ih =>
    cases rest with
    | nil => rfl
    | cons u us =>
      show (t ++ ", " ++ goJoin ", " (u :: us)).data = _
      simp only [String.data_append, ih]
      simp [joinCommaList]

theorem splitOnCommaList_ne_nil (l : List Char) : splitOnCommaList l ≠ [] := by
  induction l with
  | nil => simp [splitOnCommaList]
  | cons c rest ih =>
    simp only [splitOnCommaList]
    by_cases h : c = ','
    · simp [h]
    · simp only [h, if_false]
      cases hr : splitOnCommaList rest with
      | nil => simp
      | cons a b => simp

theorem splitOnCommaList_append (t : List Char) :
    ∀ (l : List Char) (h0 : List Char) (r : List (List Char)),
    ',' ∉ t → splitOnCommaList l = h0 :: r →
    splitOnCommaList (t ++ l) = (t ++ h0) :: r := by
  induction t with
  | nil =>
    intro l h0 r _ hl
    simpa using hl
  | cons c t ih =>
    intro l h0 r hc hl
    have hcc : ¬(c = ',') := by
      intro h
      exact hc (by simp [h])
    have ihh : splitOnCommaList (t.append l) = (t ++ h0) :: r :=
      ih l h0 r (fun hm => hc (List.mem_cons_of_mem _ hm)) hl
    simp only [List.cons_append, splitOnCommaList, ihh, hcc, if_false]

theorem splitOnCommaList_comma (l : List Char) :
    splitOnCommaList (',' :: l) = [] :: splitOnCommaList l := by
  simp [splitOnCommaList]

theorem splitOnCommaList_single (t : List Char) (h : ',' ∉ t) :
    splitOnCommaList t = [t] := by
  have := splitOnCommaList_append t [] [] [] h (by simp [splitOnCommaList])
  simpa using this

theorem split_join (ts : List (List Char)) :
    ∀ (t : List Char), ',' ∉ t → (∀ u ∈ ts, ',' ∉ u) →
    splitOnCommaList (joinCommaList (t :: ts)) = t :: ts.map (fun u => ' ' :: u) := by
  induction ts with
  | nil =>
    intro t ht _
    simpa [joinCommaList] using splitOnCommaList_single t ht
  | cons u us ih =>
    intro t ht hts
    have hu : ',' ∉ u := hts u (by simp)
    have hus : ∀ w ∈ us, ',' ∉ w := fun w hw => hts w (List.mem_cons_of_mem _ hw)
    have step1 := ih u hu hus
    have step2 : splitOnCommaList (' ' :: joinCommaList (u :: us))
        = (' ' :: u) :: us.map (fun w => ' ' :: w) := by
      have := splitOnCommaList_append [' '] (joinCommaList (u :: us))
        u (us.map (fun w => ' ' :: w)) (by decide) step1
      simpa using this
    have step3 : splitOnCommaList (',' :: ' ' :: joinCommaList (u :: us))
        = [] :: (' ' :: u) :: us.map (fun w => ' ' :: w) := by
      rw [splitOnCommaList_comma, step2]
    have step4 := splitOnCommaList_append t (',' :: ' ' :: joinCommaList (u :: us))
      [] ((' ' :: u) :: us.map (fun w => ' ' :: w)) ht step3
    show splitOnCommaList (t ++ ',' :: ' ' :: joinCommaList (u :: us)) = _
    rw [step4]
    simp

/-- A per-flag key that survives the serialize/parse cycle byte for byte:
not a reserved sentinel, comma-free, no leading dash or trim character, no
trailing trim character, and already lowercase. -/
def canonicalKey (k : String) : Prop :=
  k ≠ FlagAll ∧ k ≠ FlagNone ∧ ',' ∉ k.data
  ∧ (∀ c ∈ k.data.take 1, c ∉ trimChars ∧ c ≠ '-')
  ∧ (∀ c ∈ k.data.reverse.take 1, c ∉ trimChars)
  ∧ k.data.map Char.toLower = k.data

instance (k : String) : Decidable (canonicalKey k) := by
  unfold canonicalKey
  infer_instance

/-- A `FlagSet` in the image of well-behaved use: the two bits not both
set, not the completely empty configuration (whose serialization is the
empty string, which re-parses as one empty bare token), unique keys, and
canonical keys. -/
def Canonical (s : FlagSet) : Prop :=
  ¬(s.all = true ∧ s.none = true)
  ∧ (s.all = true ∨ s.none = true ∨ s.flags ≠ [])
  ∧ (s.flags.map Prod.fst).Nodup
  ∧ ∀ kv ∈ s.flags, canonicalKey kv.1

instance (s : FlagSet) : Decidable (Canonical s) := by
  unfold Canonical
  infer_instance

theorem dropWhile_eq_self_of_head (p : Char → Bool) (l : List Char)
    (h : ∀ c ∈ l.take 1, p c = false) : l.dropWhile p = l := by
  cases l with
  | nil => rfl
  | cons c rest =>
    have := h c (by simp)
    simp [List.dropWhile, this]

theorem goTrimList_fixed (l : List Char)
    (h1 : ∀ c ∈ l.take 1, c ∉ trimChars)
    (h2 : ∀ c ∈ l.reverse.take 1, c ∉ trimChars) : goTrimList l = l := by
  unfold goTrimList
  rw [dropWhile_eq_self_of_head _ l (fun c hc => by simp [h1 c hc])]
  rw [dropWhile_eq_self_of_head _ l.reverse (fun c hc => by simp [h2 c hc])]
  exact List.reverse_reverse l

theorem goTrimList_cons_space (l : List Char) :
    goTrimList (' ' :: l) = goTrimList l := by
  unfold goTrimList
  congr 1

theorem pf_space (s : String) :
    goTrim (goToLower (String.mk (' ' :: s.data))) = goTrim (goToLower s) := by
  unfold goToLower goTrim
  simp only [List.map_cons]
  have : Char.toLower ' ' = ' ' := by decide
  rw [this]
  show String.mk (goTrimList (' ' :: (s.data.map Char.toLower))) = _
  rw [goTrimList_cons_space]

theorem goToLower_of_lower (s : String) (h : s.data.map Char.toLower = s.data) :
    goToLower s = s := by
  unfold goToLower
  rw [h]

theorem pf_fix_key (k : String) (h : canonicalKey k) :
    goTrim (goToLower k) = k := by
  obtain ⟨-, -, -, h4, h5, h6⟩ := h
  rw [goToLower_of_lower k h6]
  unfold goTrim
  rw [goTrimList_fixed k.data (fun c hc => (h4 c hc).1) h5]

theorem take_one_append_singleton (xs : List Char) (a : Char) :
    (xs ++ [a]).take 1 = if xs = [] then [a] else xs.take 1 := by
  cases xs with
  | nil => simp
  | cons x rest => simp

theorem pf_fix_dash (k : String) (h : canonicalKey k) :
    goTrim (goToLower ("-" ++ k)) = "-" ++ k := by
  obtain ⟨-, -, -, h4, h5, h6⟩ := h
  have hdata : ("-" ++ k).data = '-' :: k.data := by
    simp [String.data_append]
  have hlow : ("-" ++ k).data.map Char.toLower = ("-" ++ k).data := by
    rw [hdata]
    simp only [List.map_cons, h6]
    norm_num [show Char.toLower '-' = '-' from by decide]
  have hh1 : ∀ c ∈ ("-" ++ k).data.take 1, c ∉ trimChars := by
    intro c hc
    rw [hdata] at hc
    simp at hc
    rw [hc]
    decide
  have hh2 : ∀ c ∈ ("-" ++ k).data.reverse.take 1, c ∉ trimChars := by
    intro c hc
    rw [hdata, List.reverse_cons, take_one_append_singleton] at hc
    by_cases he : k.data.reverse = []
    · rw [if_pos he] at hc
      simp at hc
      rw [hc]
      decide
    · rw [if_neg he] at hc
      exact h5 c hc
  rw [goToLower_of_lower _ hlow]
  unfold goTrim
  rw [goTrimList_fixed ("-" ++ k).data hh1 hh2]

theorem startsWithDash_eq_false (s : String) (h : ∀ c ∈ s.data.take 1, c ≠ '-') :
    startsWithDash s = false := by
  unfold startsWithDash
  split
  · next rest heq => exact absurd rfl (h '-' (by rw [heq]; simp))
  · rfl

theorem parseStepPF_all (fs : FlagSet) :
    parseStepPF fs FlagAll = { fs with all := true, flags := mapInsert fs.flags FlagAll true } := rfl

theorem parseStepPF_key (fs : FlagSet) (k : String) (h : canonicalKey k) :
    parseStepPF fs k = { fs with flags := mapInsert fs.flags k true } := by
  obtain ⟨h1, h2, -, h4, -, -⟩ := h
  have hsw : startsWithDash k = false :=
    startsWithDash_eq_false k (fun c hc => (h4 c hc).2)
  simp [parseStepPF, h1, h2, hsw]

theorem parseStepPF_dash (fs : FlagSet) (k : String) :
    parseStepPF fs ("-" ++ k) = { fs with flags := mapInsert fs.flags k false } := by
  have hdata : ("-" ++ k).data = '-' :: k.data := by
    simp [String.data_append]
  have hall : ("-" ++ k) ≠ FlagAll := by
    intro he
    have hd := congrArg String.data he
    rw [hdata] at hd
    have : '-' = 'a' := by injection hd
    exact absurd this (by decide)
  have hnone : ("-" ++ k) ≠ FlagNone := by
    intro he
    have hd := congrArg String.data he
    rw [hdata] at hd
    have : '-' = 'n' := by injection hd
    exact absurd this (by decide)
  have hsw : startsWithDash ("-" ++ k) = true := by
    simp only [startsWithDash, hdata]
  have hsd : stripDash ("-" ++ k) = k := by
    simp only [stripDash, hdata]
  simp [parseStepPF, hall, hnone, hsw, hsd]

/-- The token `String()` writes for one entry of the map when the `all` bit
is unset (and, for disabled entries, also when it is set). -/
def entryTok (kv : Flag × Bool) : String :=
  if kv.2 then kv.1 else "-" ++ kv.1

theorem foldl_parseStepPF_entries (entries : List (Flag × Bool)) :
    ∀ fs : FlagSet, (∀ kv ∈ entries, canonicalKey kv.1) →
    List.foldl parseStepPF fs (entries.map entryTok)
      = { fs with
          flags := List.foldl (fun m kv => mapInsert m kv.1 kv.2) fs.flags entries } := by
  induction entries with
  | nil =>
    intro fs _
    rfl
  | cons kv rest ih =>
    intro fs h
    have hk := h kv (by simp)
    rw [List.map_cons, List.foldl_cons, List.foldl_cons]
    have hstep : parseStepPF fs (entryTok kv)
        = { fs with flags := mapInsert fs.flags kv.1 kv.2 } := by
      obtain ⟨k, v⟩ := kv
      cases v
      · simpa [entryTok] using parseStepPF_dash fs k
      · simpa [entryTok] using parseStepPF_key fs k hk
    rw [hstep, ih _ (fun kv2 h2 => h kv2 (List.mem_cons_of_mem _ h2))]

theorem mapInsert_append (m : List (Flag × Bool)) (k : Flag) (v : Bool)
    (h : k ∉ m.map Prod.fst) : mapInsert m k v = m ++ [(k, v)] := by
  induction m with
  | nil => rfl
  | cons kv rest ih =>
    obtain ⟨k1, v1⟩ := kv
    simp only [List.map_cons, List.mem_cons] at h
    push_neg at h
    simp only [mapInsert, Ne.symm h.1, if_false, List.cons_append]
    rw [ih h.2]

theorem foldl_mapInsert_append (entries : List (Flag × Bool)) :
    ∀ acc : List (Flag × Bool),
    (entries.map Prod.fst).Nodup →
    (∀ k ∈ entries.map Prod.fst, k ∉ acc.map Prod.fst) →
    List.foldl (fun m kv => mapInsert m kv.1 kv.2) acc entries = acc ++ entries := by
  induction entries with
  | nil =>
    intro acc _ _
    simp
  | cons kv rest ih =>
    intro acc hnd hdisj
    obtain ⟨k, v⟩ := kv
    simp only [List.map_cons, List.nodup_cons] at hnd
    rw [List.foldl_cons]
    have hk : k ∉ acc.map Prod.fst := hdisj k (by simp)
    rw [mapInsert_append acc k v hk]
    rw [ih (acc ++ [(k, v)]) hnd.2 ?disj]
    · simp
    case disj =>
      intro k2 hk2
      simp only [List.map_append, List.mem_append]
      push_neg
      constructor
      · exact fun hc => hdisj k2 (by simp [hk2]) hc
      · intro hc
        simp at hc
        rw [hc] at hk2
        exact hnd.1 hk2

theorem lookupFlag_filter_disabled (m : List (Flag × Bool)) (f : Flag)
    (hnd : (m.map Prod.fst).Nodup) :
    lookupFlag (m.filter (fun kv => !kv.2)) f
      = match lookupFlag m f with
        | some false => some false
        | _ => Option.none := by
  induction m with
  | nil => rfl
  | cons kv rest ih =>
    obtain ⟨k, v⟩ := kv
    simp only [List.map_cons, List.nodup_cons] at hnd
    by_cases hf : k = f
    · subst hf
      cases v
      · simp [lookupFlag]
      · have hsub : k ∉ (rest.filter (fun kv => !kv.2)).map Prod.fst := by
          intro hc
          apply hnd.1
          simp only [List.mem_map] at hc
          obtain ⟨kv2, hkv2, hkk⟩ := hc
          exact List.mem_map.2 ⟨kv2, List.mem_of_mem_filter hkv2, hkk⟩
        simp [lookupFlag, lookupFlag_eq_none _ _ hsub]
    · cases v <;> simp [lookupFlag, hf, ih hnd.2]

theorem mk_data (s : String) : String.mk s.data = s := rfl

theorem goSplit_goJoin (t : String) (toks : List String)
    (h : ∀ u ∈ t :: toks, ',' ∉ u.data) :
    goSplitComma (goJoin ", " (t :: toks))
      = t :: toks.map (fun u => String.mk (' ' :: u.data)) := by
  unfold goSplitComma
  rw [goJoin_data]
  have hsplit := split_join (toks.map String.data) t.data (h t (by simp))
    (fun u hu => by
      simp only [List.mem_map] at hu
      obtain ⟨u0, hu0, hd⟩ := hu
      rw [← hd]
      exact h u0 (List.mem_cons_of_mem _ hu0))
  rw [show (t :: toks).map String.data = t.data :: toks.map String.data from rfl, hsplit]
  simp only [List.map_cons, List.map_map, mk_data]
  rfl

theorem comma_not_mem_entryTok (kv : Flag × Bool) (h : canonicalKey kv.1) :
    ',' ∉ (entryTok kv).data := by
  obtain ⟨k, v⟩ := kv
  have h3 : ',' ∉ k.data := h.2.2.1
  cases v
  · show ',' ∉ ("-" ++ k).data
    intro hc
    rw [show ("-" ++ k).data = '-' :: k.data from by simp [String.data_append]] at hc
    rcases List.mem_cons.1 hc with h1 | h1
    · exact absurd h1 (by decide)
    · exact h3 h1
  · exact h3

theorem pf_fix_entryTok (kv : Flag × Bool) (h : canonicalKey kv.1) :
    goTrim (goToLower (entryTok kv)) = entryTok kv := by
  obtain ⟨k, v⟩ := kv
  cases v
  · exact pf_fix_dash k h
  · exact pf_fix_key k h

theorem filterMap_entryToken_all (l : List (Flag × Bool))
    (h : ∀ kv ∈ l, kv.1 ≠ FlagAll) :
    l.filterMap (entryToken true) = (l.filter (fun kv => !kv.2)).map entryTok := by
  induction l with
  | nil => rfl
  | cons kv rest ih =>
    have hk := h kv (by simp)
    have hrest := fun kv2 h2 => h kv2 (List.mem_cons_of_mem _ h2)
    by_cases hv : kv.2
    · simp [entryToken, entryTok, hk, hv, ih hrest]
    · simp [entryToken, entryTok, hk, hv, ih hrest]

theorem filterMap_entryToken_noall (l : List (Flag × Bool))
    (h : ∀ kv ∈ l, kv.1 ≠ FlagAll) :
    l.filterMap (entryToken false) = l.map entryTok := by
  induction l with
  | nil => rfl
  | cons kv rest ih =>
    have hk := h kv (by simp)
    have hrest := fun kv2 h2 => h kv2 (List.mem_cons_of_mem _ h2)
    by_cases hv : kv.2
    · simp [entryToken, entryTok, hk, hv, ih hrest]
    · simp [entryToken, entryTok, hk, hv, ih hrest]

theorem parse_of_tokens (t : String) (ts : List String)
    (hcom : ∀ u ∈ t :: ts, ',' ∉ u.data)
    (hfix : ∀ u ∈ t :: ts, goTrim (goToLower u) = u) :
    NewFlagSetFromCSV (goJoin ", " (t :: ts))
      = List.foldl parseStepPF { flags := [], all := false, none := false } (t :: ts) := by
  unfold NewFlagSetFromCSV
  rw [goSplit_goJoin t ts hcom]
  have hmap : (t :: ts.map (fun u => String.mk (' ' :: u.data))).map
      (fun tok => goTrim (goToLower tok)) = t :: ts := by
    simp only [List.map_cons, List.map_map]
    rw [hfix t (by simp)]
    congr 1
    have hcg : ∀ u ∈ ts,
        (fun u => goTrim (goToLower (String.mk (' ' :: u.data)))) u = id u := by
      intro u hu
      show goTrim (goToLower (String.mk (' ' :: u.data))) = u
      exact (pf_space u).trans (hfix u (List.mem_cons_of_mem _ hu))
    calc ts.map (fun u => goTrim (goToLower (String.mk (' ' :: u.data))))
        = ts.map id := List.map_congr_left hcg
      _ = ts := List.map_id ts
  rw [show List.foldl parseStep { flags := [], all := false, none := false }
        (t :: ts.map (fun u => String.mk (' ' :: u.data)))
      = List.foldl (fun fs tok => parseStepPF fs (goTrim (goToLower tok)))
        { flags := [], all := false, none := false }
        (t :: ts.map (fun u => String.mk (' ' :: u.data))) from rfl]
  rw [← List.foldl_map (fun tok => goTrim (goToLower tok)) parseStepPF]
  rw [hmap]

/-- C3, counterexample: a set with both the `all` and `none` bits set
serializes to `none`, so the round trip forgets that `all` wins in
`IsEnabled`: the original answers `true` for `x`, the re-parsed set answers
`false`. -/
theorem C3_counterexample :
    FlagSet.IsEnabled { flags := [], all := true, none := true } "x" = true
    ∧ FlagSet.IsEnabled
        (NewFlagSetFromCSV
          (FlagSet.toString { flags := [], all := true, none := true })) "x" = false := by
  refine ⟨by decide, by decide⟩

/-- C3, amended: the String/CSV round trip preserves every `IsEnabled`
verdict for canonical flag sets: the `all` and `none` bits not both set,
the configuration not completely empty, per-flag keys distinct, and every
key comma-free, dash-free and whitespace-free at its edges, lowercase and
not a reserved sentinel name.  (Each condition is forced by a concrete
degenerate set on which the bare claim fails, such as the all-and-none set
of the counterexample, a set whose only entry is keyed `none`, or an
uppercase key.) -/
theorem C3_amended (s : FlagSet) (hc : Canonical s) (f : Flag) :
    (NewFlagSetFromCSV s.toString).IsEnabled f = s.IsEnabled f := by
  obtain ⟨hnotboth, hne, hnd, hkeys⟩ := hc
  by_cases hn : s.none = true
  · have hall : s.all = false := by
      cases hsa : s.all
      · rfl
      · exact absurd ⟨hsa, hn⟩ hnotboth
    have hts : s.toString = FlagNone := by
      simp [FlagSet.toString, hn]
    rw [hts]
    have hparse : NewFlagSetFromCSV FlagNone
        = { flags := [(FlagNone, true)], all := false, none := true } := by decide
    rw [hparse]
    simp [FlagSet.IsEnabled, hall, hn]
  · have hn' : s.none = false := by
      cases hsa : s.none
      · rfl
      · exact absurd hsa hn
    have hkeys_ne_all : ∀ kv ∈ s.flags, kv.1 ≠ FlagAll := fun kv h => (hkeys kv h).1
    by_cases ha : s.all = true
    · -- all bit set: tokens are `all` followed by the disabled entries
      set D := s.flags.filter (fun kv => !kv.2) with hD
      have hcanonD : ∀ kv ∈ D, canonicalKey kv.1 :=
        fun kv h => hkeys kv (List.mem_of_mem_filter h)
      have htok : tokensOf s = FlagAll :: D.map entryTok := by
        rw [tokensOf_eq, ha, if_pos rfl,
          filterMap_entryToken_all s.flags hkeys_ne_all]
        rfl
      have hts : s.toString = goJoin ", " (FlagAll :: D.map entryTok) := by
        rw [FlagSet.toString, if_neg (by simp [hn']), htok]
      have hcom : ∀ u ∈ FlagAll :: D.map entryTok, ',' ∉ u.data := by
        intro u hu
        rcases List.mem_cons.1 hu with h1 | h1
        · rw [h1]
          decide
        · simp only [List.mem_map] at h1
          obtain ⟨kv, hkv, rfl⟩ := h1
          exact comma_not_mem_entryTok kv (hcanonD kv hkv)
      have hfix : ∀ u ∈ FlagAll :: D.map entryTok, goTrim (goToLower u) = u := by
        intro u hu
        rcases List.mem_cons.1 hu with h1 | h1
        · rw [h1]
          decide
        · simp only [List.mem_map] at h1
          obtain ⟨kv, hkv, rfl⟩ := h1
          exact pf_fix_entryTok kv (hcanonD kv hkv)
      have hndD : (D.map Prod.fst).Nodup :=
        List.Nodup.sublist (List.Sublist.map Prod.fst (List.filter_sublist s.flags)) hnd
      have hdisjD : ∀ k ∈ D.map Prod.fst, k ∉ ([(FlagAll, true)] : List (Flag × Bool)).map Prod.fst := by
        intro k hk
        simp only [List.map_cons, List.map_nil, List.mem_singleton]
        simp only [List.mem_map] at hk
        obtain ⟨kv, hkv, rfl⟩ := hk
        exact (hkeys kv (List.mem_of_mem_filter hkv)).1
      have hparse : NewFlagSetFromCSV s.toString
          = { flags := (FlagAll, true) :: D, all := true, none := false } := by
        rw [hts, parse_of_tokens _ _ hcom hfix, List.foldl_cons, parseStepPF_all,
          foldl_parseStepPF_entries D _ hcanonD]
        have heq : List.foldl (fun m kv => mapInsert m kv.1 kv.2) [(FlagAll, true)] D
            = [(FlagAll, true)] ++ D := foldl_mapInsert_append D [(FlagAll, true)] hndD hdisjD
        rw [show mapInsert ([] : List (Flag × Bool)) FlagAll true = [(FlagAll, true)] from rfl,
          heq]
        rfl
      rw [hparse]
      by_cases hf : FlagAll = f
      · rw [← hf]
        have hlknone : lookupFlag s.flags FlagAll = Option.none := by
          apply lookupFlag_eq_none
          intro hmem
          simp only [List.mem_map] at hmem
          obtain ⟨kv, hkv, hq⟩ := hmem
          exact (hkeys kv hkv).1 hq
        simp [FlagSet.IsEnabled, ha, lookupFlag, hlknone]
      · have hcons : lookupFlag ((FlagAll, true) :: D) f = lookupFlag D f := by
          simp [lookupFlag, hf]
        have hlkD := lookupFlag_filter_disabled s.flags f hnd
        rw [← hD] at hlkD
        cases hlk : lookupFlag s.flags f with
        | none =>
          rw [hlk] at hlkD
          simp only at hlkD
          simp [FlagSet.IsEnabled, ha, hcons, hlkD, hlk]
        | some v =>
          cases v
          · rw [hlk] at hlkD
            simp only at hlkD
            simp [FlagSet.IsEnabled, ha, hcons, hlkD, hlk]
          · rw [hlk] at hlkD
            simp only at hlkD
            simp [FlagSet.IsEnabled, ha, hcons, hlkD, hlk]
    · -- all bit unset: every entry contributes one token
      have ha' : s.all = false := by
        cases hsa : s.all
        · rfl
        · exact absurd hsa ha
      have hflne : s.flags ≠ [] := by
        rcases hne with h1 | h1 | h1
        · rw [ha'] at h1
          exact absurd h1 (by simp)
        · rw [hn'] at h1
          exact absurd h1 (by simp)
        · exact h1
      have htok : tokensOf s = s.flags.map entryTok := by
        rw [tokensOf_eq, ha', if_neg (by simp),
          filterMap_entryToken_noall s.flags hkeys_ne_all]
        rfl
      cases hfl : s.flags with
      | nil => exact absurd hfl hflne
      | cons kv0 rest =>
        have hkeys2 : ∀ kv ∈ kv0 :: rest, canonicalKey kv.1 := by
          rw [← hfl]
          exact hkeys
        have hcom : ∀ u ∈ entryTok kv0 :: rest.map entryTok, ',' ∉ u.data := by
          intro u hu
          rcases List.mem_cons.1 hu with h1 | h1
          · rw [h1]
            exact comma_not_mem_entryTok kv0 (hkeys2 kv0 (by simp))
          · simp only [List.mem_map] at h1
            obtain ⟨kv, hkv, rfl⟩ := h1
            exact comma_not_mem_entryTok kv (hkeys2 kv (List.mem_cons_of_mem _ hkv))
        have hfix : ∀ u ∈ entryTok kv0 :: rest.map entryTok, goTrim (goToLower u) = u := by
          intro u hu
          rcases List.mem_cons.1 hu with h1 | h1
          · rw [h1]
            exact pf_fix_entryTok kv0 (hkeys2 kv0 (by simp))
          · simp only [List.mem_map] at h1
            obtain ⟨kv, hkv, rfl⟩ := h1
            exact pf_fix_entryTok kv (hkeys2 kv (List.mem_cons_of_mem _ hkv))
        have hnd2 : ((kv0 :: rest).map Prod.fst).Nodup := by
          rw [← hfl]
          exact hnd
        have hts : s.toString = goJoin ", " (entryTok kv0 :: rest.map entryTok) := by
          rw [FlagSet.toString, if_neg (by simp [hn']), htok, hfl, List.map_cons]
        have hparse : NewFlagSetFromCSV s.toString
            = { flags := s.flags, all := false, none := false } := by
          rw [hts, parse_of_tokens _ _ hcom hfix,
            show entryTok kv0 :: rest.map entryTok = (kv0 :: rest).map entryTok from rfl,
            foldl_parseStepPF_entries (kv0 :: rest) _ hkeys2]
          have : List.foldl (fun m kv => mapInsert m kv.1 kv.2) [] (kv0 :: rest)
              = [] ++ (kv0 :: rest) :=
            foldl_mapInsert_append (kv0 :: rest) [] hnd2 (by simp)
          simp only [this, List.nil_append]
          rw [← hfl]
        rw [hparse]
        simp [FlagSet.IsEnabled, ha', hn']

/-- C3, witness: the amended round trip evaluated on a canonical set with
one enabled and one disabled entry, at the disabled flag. -/
theorem C3_witness :
    FlagSet.IsEnabled
        (NewFlagSetFromCSV
          (FlagSet.toString { flags := [("info", true), ("error", false)], all := false, none := false }))
        "error"
      = FlagSet.IsEnabled { flags := [("info", true), ("error", false)], all := false, none := false } "error" :=
  C3_amended { flags := [("info", true), ("error", false)], all := false, none := false }
    (by decide) "error"

end Logger
